import Mathlib

/-!
Shallow embedding of the electric-field visualizer (src/electric-field.py).

The interaction layer (hit-testing, charge creation and removal, the drag
state machine, the active-sign keys) is embedded over the rationals, so that
every interaction-level statement is decidable and executable.  The field
kernel (compute_field_at, color_from_mag, trace_field_line) is embedded over
the reals, with Python float arithmetic read as exact real arithmetic.

Source constants (lines 12-16): K = 1000.0, SOFT = 100.0, WIDTH = 1200,
HEIGHT = 800, GRID_SPACING = 25, ARROW_SCALE = 25.
-/

namespace ElectricField

/-- Coulomb-like scaling constant, line 12 of the source. -/
def K : ℝ := 1000

/-- Softening constant, line 13 of the source: SOFT = 100.0. -/
def SOFT : ℝ := 100

/-- Viewport width in pixels, line 14 of the source. -/
def WIDTH : ℝ := 1200

/-- Viewport height in pixels, line 14 of the source. -/
def HEIGHT : ℝ := 800

/-- A point charge, lines 28-32: position and signed strength.  Python floats
are modelled as rationals: every value the program ever stores in a Charge is
an integer mouse coordinate or an integer active sign, hence exact. -/
structure Charge where
  x : ℚ
  y : ℚ
  q : ℚ
deriving DecidableEq, Repr

/-- Squared pixel distance from a charge to a pointer position, as written in
the hit tests on lines 167 and 179. -/
def sqDist (c : Charge) (mx my : ℚ) : ℚ :=
  (c.x - mx) * (c.x - mx) + (c.y - my) * (c.y - my)

/-! ### Interaction layer (lines 150-204) -/

/-- The primary-press hit scan, lines 165-169: first charge whose squared
distance to the press is below 16 * 16 = 256, by iteration order; the index
accumulator is the enumeration counter. -/
def findHitAux (mx my : ℚ) : List Charge → Nat → Option Nat
  | [], _ => none
  | c :: cs, i =>
      if sqDist c mx my < 256 then some i else findHitAux mx my cs (i + 1)

/-- Hit test entry point for a primary press. -/
def findHit (charges : List Charge) (mx my : ℚ) : Option Nat :=
  findHitAux mx my charges 0

/-- The secondary-press nearest scan, lines 176-182: running best squared
distance starts at 400; a charge strictly closer than the current best
becomes the new candidate, so the first charge attaining the minimum wins
exact ties. -/
def findNearestAux (mx my : ℚ) : List Charge → Nat → ℚ → Option Nat → Option Nat
  | [], _, _, nearest => nearest
  | c :: cs, i, best, nearest =>
      if sqDist c mx my < best then
        findNearestAux mx my cs (i + 1) (sqDist c mx my) (some i)
      else
        findNearestAux mx my cs (i + 1) best nearest

/-- Nearest-charge search for a secondary press, threshold 400. -/
def findNearest (charges : List Charge) (mx my : ℚ) : Option Nat :=
  findNearestAux mx my charges 0 400 none

/-- The frame-spanning interaction state of main: the charge list, the active
sign, the drag index and the field-line-mode flag (lines 150-153). -/
structure SState where
  charges : List Charge
  activeSign : ℤ
  dragging : Option Nat
  fieldLineMode : Bool
deriving DecidableEq, Repr

/-- The initial session state (lines 150-153): no charges, active sign 1,
no drag, arrow mode. -/
def initState : SState := ⟨[], 1, none, false⟩

/-- The discrete interaction events the event loop distinguishes
(lines 157-199). -/
inductive Ev where
  | press1 (mx my : ℚ)
  | press3 (mx my : ℚ)
  | release
  | keyPlus
  | keyMinus
  | keyR
  | keyF
deriving DecidableEq, Repr

/-- One step of the event loop, lines 161-199.  A primary press either starts
a drag on the first hit charge or appends a new charge of strength
activeSign; a secondary press removes the nearest charge within the 400
threshold if any; release clears the drag; the sign keys clamp to [-10, 10];
R empties the charge list; F toggles the mode. -/
def applyEvent (s : SState) : Ev → SState
  | .press1 mx my =>
      match findHit s.charges mx my with
      | some i => { s with dragging := some i }
      | none => { s with charges := s.charges ++ [⟨mx, my, (s.activeSign : ℚ)⟩] }
  | .press3 mx my =>
      match findNearest s.charges mx my with
      | some i => { s with charges := s.charges.eraseIdx i }
      | none => s
  | .release => { s with dragging := none }
  | .keyPlus => { s with activeSign := max (-10) (min 10 (s.activeSign + 1)) }
  | .keyMinus => { s with activeSign := max (-10) (min 10 (s.activeSign - 1)) }
  | .keyR => { s with charges := [] }
  | .keyF => { s with fieldLineMode := !s.fieldLineMode }

/-- Drain a list of pending events, as the per-frame event loop does. -/
def applyEvents (s : SState) (es : List Ev) : SState :=
  es.foldl applyEvent s

/-- The per-frame drag update, lines 201-204.  The guard is exactly the one
in the source: the drag index must be set and the charge list non-empty.
Indexing the list is then unguarded; an index at or past the length raises
IndexError in Python, modelled here as none. -/
def frameDrag (s : SState) (mx my : ℚ) : Option SState :=
  match s.dragging with
  | none => some s
  | some i =>
      if s.charges.isEmpty then some s
      else if h : i < s.charges.length then
        some { s with
          charges := s.charges.set i { s.charges.get ⟨i, h⟩ with x := mx, y := my } }
      else none

/-! ### Field kernel (lines 38-51) -/

/-- compute_field_at, lines 38-47: fold over the charge list accumulating
each contribution K * q * (dx, dy) * inv_r3 with
r2 = dx * dx + dy * dy + SOFT * SOFT and inv_r3 = 1 / (r2 * sqrt r2),
starting from Ex = Ey = 0. -/
noncomputable def compute_field_at (px py : ℝ) (charges : List Charge) : ℝ × ℝ :=
  charges.foldl
    (fun E c =>
      let dx := px - (c.x : ℝ)
      let dy := py - (c.y : ℝ)
      let r2 := dx * dx + dy * dy + SOFT * SOFT
      let inv_r3 := 1 / (r2 * Real.sqrt r2)
      (E.1 + K * (c.q : ℝ) * dx * inv_r3, E.2 + K * (c.q : ℝ) * dy * inv_r3))
    (0, 0)

/-- Vector magnitude helper, lines 50-51. -/
noncomputable def magnitude (x y : ℝ) : ℝ :=
  Real.sqrt (x * x + y * y)

/-! ### Color mapping (lines 57-79) -/

/-- Python int() on a float truncates toward zero. -/
noncomputable def pyInt (x : ℝ) : ℤ :=
  if 0 ≤ x then ⌊x⌋ else -⌊-x⌋

/-- color_from_mag, lines 57-79.  A non-positive frame maximum yields the
inert color (0, 0, 255); otherwise the ratio is compressed by the power 0.4,
clamped to [0, 1], and mapped through three bands split at 0.33 and 0.66. -/
noncomputable def color_from_mag (mag max_mag : ℝ) : ℤ × ℤ × ℤ :=
  if max_mag ≤ 0 then (0, 0, 255)
  else
    let t := max 0 (min 1 ((mag / max_mag) ^ (0.4 : ℝ)))
    if t < 0.33 then
      (0, pyInt (255 * (t / 0.33)), 255)
    else if t < 0.66 then
      (pyInt (255 * ((t - 0.33) / 0.33)), 255, pyInt (255 * (1 - (t - 0.33) / 0.33)))
    else
      (255, pyInt (255 * (1 - (t - 0.66) / 0.34)), 0)

/-! ### Field-line tracing (lines 114-137) -/

/-- One integration direction of trace_field_line, lines 117-135: it runs for
at most the given fuel (the range bound of the for loop), stops before
stepping when the field magnitude at the current point is exactly zero, and
stops after stepping, without recording the point, when the stepped position
leaves the viewport; otherwise the stepped position is recorded and the walk
continues from it. -/
noncomputable def traceDir (charges : List Charge) (step dir : ℝ) :
    ℝ → ℝ → Nat → List (ℝ × ℝ)
  | _, _, 0 => []
  | px, py, n + 1 =>
      let E := compute_field_at px py charges
      let mag := magnitude E.1 E.2
      if mag = 0 then []
      else
        let qx := px + dir * (E.1 / mag) * step
        let qy := py + dir * (E.2 / mag) * step
        if qx < 0 ∨ qx > WIDTH ∨ qy < 0 ∨ qy > HEIGHT then []
        else (qx, qy) :: traceDir charges step dir qx qy n

/-- trace_field_line, lines 114-137: the seed point, then the forward
direction's recorded points, then the backward direction's. -/
noncomputable def trace_field_line (x y : ℝ) (charges : List Charge)
    (step : ℝ := 4) (max_steps : Nat := 1500) : List (ℝ × ℝ) :=
  (x, y) :: (traceDir charges step 1 x y max_steps ++
    traceDir charges step (-1) x y max_steps)

/-! ### Spec-side formulas used to state the claims -/

/-- The squared softened distance from the sampling point to a charge, the
r2 of line 43 written as a standalone function. -/
def r2At (px py : ℝ) (c : Charge) : ℝ :=
  (px - (c.x : ℝ)) * (px - (c.x : ℝ)) + (py - (c.y : ℝ)) * (py - (c.y : ℝ)) +
    SOFT * SOFT

/-- The x component a single charge contributes to the field at a point, in
the division form of the specification. -/
noncomputable def contribX (px py : ℝ) (c : Charge) : ℝ :=
  K * (c.q : ℝ) * (px - (c.x : ℝ)) / (r2At px py c * Real.sqrt (r2At px py c))

/-- The y component a single charge contributes to the field at a point. -/
noncomputable def contribY (px py : ℝ) (c : Charge) : ℝ :=
  K * (c.q : ℝ) * (py - (c.y : ℝ)) / (r2At px py c * Real.sqrt (r2At px py c))

/-- The normalized, power-compressed, clamped color parameter of lines 62-63:
t = clamp((mag / max_mag) ^ 0.4, 0, 1). -/
noncomputable def tClamp (mag max_mag : ℝ) : ℝ :=
  max 0 (min 1 ((mag / max_mag) ^ (0.4 : ℝ)))

/-- One Euler step of the tracer (lines 126-130): advance the current point
by dir * step along the normalized field direction. -/
noncomputable def stepPoint (charges : List Charge) (step dir px py : ℝ) :
    ℝ × ℝ :=
  let E := compute_field_at px py charges
  let mag := magnitude E.1 E.2
  (px + dir * (E.1 / mag) * step, py + dir * (E.2 / mag) * step)

/-- The x contribution exactly as the loop body of lines 41-45 writes it,
with the reciprocal multiplied rather than divided. -/
noncomputable def codeContribX (px py : ℝ) (c : Charge) : ℝ :=
  K * (c.q : ℝ) * (px - (c.x : ℝ)) * (1 / (r2At px py c * Real.sqrt (r2At px py c)))

/-- The y contribution exactly as the loop body of lines 41-46 writes it. -/
noncomputable def codeContribY (px py : ℝ) (c : Charge) : ℝ :=
  K * (c.q : ℝ) * (py - (c.y : ℝ)) * (1 / (r2At px py c * Real.sqrt (r2At px py c)))

/-! ### Lemmas on the field kernel -/

lemma compute_field_at_def (px py : ℝ) (charges : List Charge) :
    compute_field_at px py charges =
      charges.foldl
        (fun E c => (E.1 + codeContribX px py c, E.2 + codeContribY px py c))
        (0, 0) := rfl

lemma foldl_add_pair (f g : Charge → ℝ) :
    ∀ (l : List Charge) (a b : ℝ),
      l.foldl (fun E c => (E.1 + f c, E.2 + g c)) (a, b) =
        (a + (l.map f).sum, b + (l.map g).sum) := by
  intro l
  induction l with
  | nil => simp
  | cons c cs ih =>
      intro a b
      simp only [List.foldl_cons, List.map_cons, List.sum_cons, ih, Prod.mk.injEq]
      constructor <;> ring

lemma compute_field_at_sum (px py : ℝ) (charges : List Charge) :
    compute_field_at px py charges =
      ((charges.map (contribX px py)).sum, (charges.map (contribY px py)).sum) := by
  rw [compute_field_at_def, foldl_add_pair]
  have hx : codeContribX px py = contribX px py := by
    funext c
    rw [codeContribX, contribX, mul_one_div]
  have hy : codeContribY px py = contribY px py := by
    funext c
    rw [codeContribY, contribY, mul_one_div]
  rw [hx, hy, zero_add, zero_add]

lemma r2At_pos (px py : ℝ) (c : Charge) : 0 < r2At px py c := by
  have h1 : (0 : ℝ) ≤ (px - (c.x : ℝ)) * (px - (c.x : ℝ)) := mul_self_nonneg _
  have h2 : (0 : ℝ) ≤ (py - (c.y : ℝ)) * (py - (c.y : ℝ)) := mul_self_nonneg _
  have h3 : (0 : ℝ) < SOFT * SOFT := by rw [SOFT]; norm_num
  rw [r2At]
  linarith

lemma traceDir_length_le (charges : List Charge) (step dir : ℝ) :
    ∀ (n : Nat) (px py : ℝ), (traceDir charges step dir px py n).length ≤ n := by
  intro n
  induction n with
  | zero => intro px py; rw [traceDir]; simp
  | succ n ih =>
      intro px py
      rw [traceDir]
      simp only []
      split
      · simp
      · split
        · simp
        · simpa using Nat.succ_le_succ (ih _ _)

lemma traceDir_mem_bounds (charges : List Charge) (step dir : ℝ) :
    ∀ (n : Nat) (px py : ℝ) (p : ℝ × ℝ), p ∈ traceDir charges step dir px py n →
      0 ≤ p.1 ∧ p.1 ≤ WIDTH ∧ 0 ≤ p.2 ∧ p.2 ≤ HEIGHT := by
  intro n
  induction n with
  | zero => intro px py p hp; rw [traceDir] at hp; simp at hp
  | succ n ih =>
      intro px py p hp
      rw [traceDir] at hp
      simp only [] at hp
      split at hp
      · simp at hp
      · split at hp
        next hout =>
          simp at hp
        next hout =>
          push_neg at hout
          obtain ⟨h1, h2, h3, h4⟩ := hout
          rcases List.mem_cons.mp hp with hq | hq
          · subst hq
            exact ⟨h1, h2, h3, h4⟩
          · exact ih _ _ _ hq

/-- C5: for every point and every finite charge list, compute_field_at is the
sum over the charges of K * q * (dx, dy) / (r2 * sqrt r2) with
r2 = dx * dx + dy * dy + SOFT * SOFT; the empty charge set gives exactly the
zero vector, and every denominator base r2 is strictly positive. -/
theorem c5_field_is_superposition_sum (px py : ℝ) (charges : List Charge) :
    compute_field_at px py charges =
      ((charges.map (contribX px py)).sum, (charges.map (contribY px py)).sum) ∧
    compute_field_at px py [] = (0, 0) ∧
    ∀ c : Charge, 0 < r2At px py c :=
  ⟨compute_field_at_sum px py charges, rfl, fun c => r2At_pos px py c⟩

/-- C9: superposition linearity — the field of a two-charge set at any point
is the elementwise sum of the fields of the two singleton sets, exactly over
the real-number reading of the arithmetic. -/
theorem c9_superposition_linearity (px py : ℝ) (c1 c2 : Charge) :
    compute_field_at px py [c1, c2] =
      ((compute_field_at px py [c1]).1 + (compute_field_at px py [c2]).1,
       (compute_field_at px py [c1]).2 + (compute_field_at px py [c2]).2) := by
  simp [compute_field_at_sum, Prod.mk.injEq]

/-- C6: trace_field_line is a total function of its arguments (each direction
is a for loop bounded by max_steps, embedded as fuel recursion), and the
returned polyline holds the seed plus at most max_steps points per direction,
hence at most 1 + 2 * max_steps points; moreover a direction with steps left
halts with no further points exactly when the field magnitude at the current
point is zero, and otherwise halts exactly when the stepped position leaves
the viewport, else records that position and continues with one step fewer. -/
theorem c6_trace_length_bounded (x y : ℝ) (charges : List Charge) (step : ℝ)
    (max_steps : Nat) :
    (trace_field_line x y charges step max_steps).length ≤ 1 + 2 * max_steps ∧
    (∀ (dir px py : ℝ) (n : Nat),
      traceDir charges step dir px py (n + 1) =
        if magnitude (compute_field_at px py charges).1
            (compute_field_at px py charges).2 = 0 then []
        else if (stepPoint charges step dir px py).1 < 0 ∨
            (stepPoint charges step dir px py).1 > WIDTH ∨
            (stepPoint charges step dir px py).2 < 0 ∨
            (stepPoint charges step dir px py).2 > HEIGHT then []
        else stepPoint charges step dir px py ::
          traceDir charges step dir (stepPoint charges step dir px py).1
            (stepPoint charges step dir px py).2 n) ∧
    (∀ (dir px py : ℝ), traceDir charges step dir px py 0 = []) := by
  refine ⟨?_, fun dir px py n => rfl, fun dir px py => rfl⟩
  have h1 := traceDir_length_le charges step 1 max_steps x y
  have h2 := traceDir_length_le charges step (-1) max_steps x y
  simp only [trace_field_line, List.length_cons, List.length_append]
  omega

/-- C10: the first point of a traced polyline is always the seed itself, even
when the seed lies outside the viewport, while every later point lies inside
the viewport rectangle [0, WIDTH] x [0, HEIGHT]. -/
theorem c10_trace_tail_in_viewport (x y : ℝ) (charges : List Charge) (step : ℝ)
    (max_steps : Nat) :
    (trace_field_line x y charges step max_steps).head? = some (x, y) ∧
    ∀ p ∈ (trace_field_line x y charges step max_steps).tail,
      0 ≤ p.1 ∧ p.1 ≤ WIDTH ∧ 0 ≤ p.2 ∧ p.2 ≤ HEIGHT := by
  refine ⟨rfl, ?_⟩
  intro p hp
  simp only [trace_field_line, List.tail_cons, List.mem_append] at hp
  rcases hp with h | h
  · exact traceDir_mem_bounds charges step 1 max_steps x y p h
  · exact traceDir_mem_bounds charges step (-1) max_steps x y p h

/-- The field of the single unit charge at (100, 100), sampled at (130, 100):
dx = 30, dy = 0, r2 = 900 + SOFT * SOFT = 10900. -/
lemma compute_field_at_single_demo :
    compute_field_at 130 100 [⟨100, 100, 1⟩] =
      (30000 / (10900 * Real.sqrt 10900), 0) := by
  rw [compute_field_at_sum]
  have h1 : r2At 130 100 ⟨100, 100, 1⟩ = 10900 := by
    rw [r2At, SOFT]
    norm_num
  rw [Prod.mk.injEq]
  constructor
  · rw [List.map_cons, List.map_nil, List.sum_cons, List.sum_nil, contribX, h1,
      K]
    norm_num
  · rw [List.map_cons, List.map_nil, List.sum_cons, List.sum_nil, contribY, h1,
      K]
    norm_num

/-- C3 counterexample: at the sampling point (130, 100) of the single unit
charge at (100, 100), the x field component the code computes is not within
relative tolerance 1 / 1000000 of the closed-form value the claim states with
softening 2, because the program's softening constant is 100, not 2. -/
theorem c3_claimed_value_is_wrong :
    ¬ |(compute_field_at 130 100 [⟨100, 100, 1⟩]).1 -
          K * 1 * 30 / ((900 + 4) * Real.sqrt 904)| ≤
        1 / 1000000 * |K * 1 * 30 / ((900 + 4) * Real.sqrt 904)| := by
  have hEx : (compute_field_at 130 100 [⟨100, 100, 1⟩]).1 =
      30000 / (10900 * Real.sqrt 10900) := by
    rw [compute_field_at_single_demo]
  have hv : K * 1 * 30 / ((900 + 4) * Real.sqrt 904) =
      30000 / (904 * Real.sqrt 904) := by
    rw [K]
    norm_num
  rw [hEx, hv]
  have h904lo : (30 : ℝ) < Real.sqrt 904 :=
    (Real.lt_sqrt (by norm_num)).mpr (by norm_num)
  have h904hi : Real.sqrt 904 < 31 :=
    (Real.sqrt_lt' (by norm_num)).mpr (by norm_num)
  have h109lo : (104 : ℝ) < Real.sqrt 10900 :=
    (Real.lt_sqrt (by norm_num)).mpr (by norm_num)
  have hs1pos : (0 : ℝ) < Real.sqrt 904 := by linarith
  have hs2pos : (0 : ℝ) < Real.sqrt 10900 := by linarith
  have hExpos : (0 : ℝ) < 30000 / (10900 * Real.sqrt 10900) := by positivity
  have hEx_hi : 30000 / (10900 * Real.sqrt 10900) < 30000 / (10900 * 104) := by
    apply div_lt_div_of_pos_left (by norm_num) (by norm_num)
    nlinarith
  have hv_lo : 30000 / (904 * 31) < 30000 / (904 * Real.sqrt 904) := by
    apply div_lt_div_of_pos_left (by norm_num) (by positivity)
    nlinarith
  have hv_hi : 30000 / (904 * Real.sqrt 904) < 30000 / (904 * 30) := by
    apply div_lt_div_of_pos_left (by norm_num) (by positivity)
    nlinarith
  have hvpos : (0 : ℝ) < 30000 / (904 * Real.sqrt 904) := by positivity
  have hlt : 30000 / (10900 * Real.sqrt 10900) < 30000 / (904 * Real.sqrt 904) := by
    calc 30000 / (10900 * Real.sqrt 10900) < 30000 / (10900 * 104) := hEx_hi
      _ < 30000 / (904 * 31) := by norm_num
      _ < 30000 / (904 * Real.sqrt 904) := hv_lo
  rw [abs_of_nonpos (by linarith), abs_of_pos hvpos]
  intro habs
  have hgap : 30000 / (904 * 31) - 30000 / (10900 * 104) ≤
      -(30000 / (10900 * Real.sqrt 10900) - 30000 / (904 * Real.sqrt 904)) := by
    linarith
  have hrhs : 1 / 1000000 * (30000 / (904 * Real.sqrt 904)) ≤
      1 / 1000000 * (30000 / (904 * 30)) := by linarith
  have : (30000 : ℝ) / (904 * 31) - 30000 / (10900 * 104) >
      1 / 1000000 * (30000 / (904 * 30)) := by norm_num
  linarith

/-- C3 amended: with the constants the program actually uses (K = 1000 and
SOFT = 100), the x component at (130, 100) equals
K * 1 * 30 / ((900 + SOFT * SOFT) * sqrt (900 + SOFT * SOFT)) exactly, and
the y component is exactly zero. -/
theorem c3_field_value_with_program_constants :
    compute_field_at 130 100 [⟨100, 100, 1⟩] =
      (K * 1 * 30 / ((900 + SOFT * SOFT) * Real.sqrt (900 + SOFT * SOFT)), 0) := by
  rw [compute_field_at_single_demo, K, SOFT]
  norm_num

/-- The compressed ratio of the C4 counterexample: (576/1000)^5 raised to the
0.4 power is exactly (576/1000)^2 = 331776/1000000, which lies strictly
between the code's band boundary 0.33 and the claimed boundary 1/3. -/
lemma rpow_demo :
    (((576 / 1000 : ℝ) ^ (5 : ℕ)) / 1) ^ (0.4 : ℝ) = 331776 / 1000000 := by
  have hb : (0 : ℝ) ≤ 576 / 1000 := by norm_num
  have h54 : ((5 : ℕ) : ℝ) * (0.4 : ℝ) = ((2 : ℕ) : ℝ) := by norm_num
  rw [div_one, ← Real.rpow_natCast (576 / 1000 : ℝ) 5, ← Real.rpow_mul hb, h54,
    Real.rpow_natCast]
  norm_num

/-- C4 counterexample: at magnitude (576/1000)^5 with frame maximum 1 the
normalized, power-compressed, clamped value t is 0.331776 < 1/3, so the
claimed gradient puts it in the blue-to-cyan band with red channel 0; the
code compares t against 0.33, lands in the middle band, and outputs red
channel 1. -/
theorem c4_band_boundary_counterexample :
    tClamp ((576 / 1000 : ℝ) ^ (5 : ℕ)) 1 < 1 / 3 ∧
    (color_from_mag ((576 / 1000 : ℝ) ^ (5 : ℕ)) 1).1 ≠ 0 := by
  have ht : tClamp ((576 / 1000 : ℝ) ^ (5 : ℕ)) 1 = 331776 / 1000000 := by
    rw [tClamp, rpow_demo]
    norm_num
  have ht' : max 0 (min 1 ((((576 / 1000 : ℝ) ^ (5 : ℕ)) / 1) ^ (0.4 : ℝ))) =
      331776 / 1000000 := ht
  constructor
  · rw [ht]
    norm_num
  · simp only [color_from_mag]
    rw [if_neg (by norm_num : ¬ (1 : ℝ) ≤ 0), ht',
      if_neg (by norm_num : ¬ (331776 / 1000000 : ℝ) < 0.33),
      if_pos (by norm_num : (331776 / 1000000 : ℝ) < 0.66)]
    have hq : pyInt (255 * ((331776 / 1000000 - 0.33) / 0.33)) = 1 := by
      rw [pyInt, if_pos (by norm_num)]
      rw [Int.floor_eq_iff]
      norm_num
    simp only [hq]
    norm_num

/-- C4 amended: for 0 ≤ m and 0 < M, with t the power-compressed clamped
ratio, color_from_mag uses band boundaries 0.33 and 0.66 (not 1/3 and 2/3):
below 0.33 red is fixed at 0 and blue at 255 with only green varying; from
0.33 to 0.66 green is fixed at 255 while red rises and blue falls; from 0.66
red is fixed at 255 and blue at 0 with only green varying. -/
theorem c4_band_structure (m M : ℝ) (_hm : 0 ≤ m) (hM : 0 < M) :
    (tClamp m M < 0.33 →
      color_from_mag m M = (0, pyInt (255 * (tClamp m M / 0.33)), 255)) ∧
    (0.33 ≤ tClamp m M → tClamp m M < 0.66 →
      color_from_mag m M =
        (pyInt (255 * ((tClamp m M - 0.33) / 0.33)), 255,
         pyInt (255 * (1 - (tClamp m M - 0.33) / 0.33)))) ∧
    (0.66 ≤ tClamp m M →
      color_from_mag m M =
        (255, pyInt (255 * (1 - (tClamp m M - 0.66) / 0.34)), 0)) := by
  have hM' : ¬ M ≤ 0 := not_le.mpr hM
  refine ⟨?_, ?_, ?_⟩
  · intro h1
    rw [tClamp] at h1
    simp only [color_from_mag]
    rw [if_neg hM', if_pos h1, tClamp]
  · intro h1 h2
    rw [tClamp] at h1 h2
    simp only [color_from_mag]
    rw [if_neg hM', if_neg (not_lt.mpr h1), if_pos h2, tClamp]
  · intro h1
    rw [tClamp] at h1
    simp only [color_from_mag]
    rw [if_neg hM', if_neg (not_lt.mpr (le_trans (by norm_num) h1)),
      if_neg (not_lt.mpr h1), tClamp]

/-- Witness for the amended C4 at the concrete input m = 1, M = 2. -/
theorem c4_band_structure_witness :
    (0 : ℝ) ≤ 1 ∧ (0 : ℝ) < 2 ∧
    ((tClamp 1 2 < 0.33 →
       color_from_mag 1 2 = (0, pyInt (255 * (tClamp 1 2 / 0.33)), 255)) ∧
     (0.33 ≤ tClamp 1 2 → tClamp 1 2 < 0.66 →
       color_from_mag 1 2 =
         (pyInt (255 * ((tClamp 1 2 - 0.33) / 0.33)), 255,
          pyInt (255 * (1 - (tClamp 1 2 - 0.33) / 0.33)))) ∧
     (0.66 ≤ tClamp 1 2 →
       color_from_mag 1 2 =
         (255, pyInt (255 * (1 - (tClamp 1 2 - 0.66) / 0.34)), 0))) :=
  ⟨by norm_num, by norm_num, c4_band_structure 1 2 (by norm_num) (by norm_num)⟩

/-! ### Lemmas on the interaction layer -/

/-- Draining a batch and then one more event is one more applyEvent step. -/
lemma applyEvents_append_one (s : SState) (es : List Ev) (e : Ev) :
    applyEvents s (es ++ [e]) = applyEvent (applyEvents s es) e := by
  simp [applyEvents, List.foldl_append]

/-- The invariant the amended C2 maintains: the active sign and every stored
charge strength lie in [-10, 10]. -/
def SignInv (s : SState) : Prop :=
  -10 ≤ s.activeSign ∧ s.activeSign ≤ 10 ∧
    ∀ c ∈ s.charges, (-10 : ℚ) ≤ c.q ∧ c.q ≤ 10

lemma signInv_applyEvent {s : SState} (hs : SignInv s) (e : Ev) :
    SignInv (applyEvent s e) := by
  obtain ⟨h1, h2, h3⟩ := hs
  cases e with
  | press1 mx my =>
      rw [applyEvent]
      cases hfind : findHit s.charges mx my with
      | some i => exact ⟨h1, h2, h3⟩
      | none =>
          refine ⟨h1, h2, fun c hc => ?_⟩
          rcases List.mem_append.mp hc with hmem | hmem
          · exact h3 c hmem
          · have hq : c = ⟨mx, my, (s.activeSign : ℚ)⟩ := List.mem_singleton.mp hmem
            subst hq
            constructor
            · show (-10 : ℚ) ≤ (s.activeSign : ℚ)
              exact_mod_cast h1
            · show (s.activeSign : ℚ) ≤ 10
              exact_mod_cast h2
  | press3 mx my =>
      rw [applyEvent]
      cases hfind : findNearest s.charges mx my with
      | some i =>
          exact ⟨h1, h2, fun c hc => h3 c (List.mem_of_mem_eraseIdx hc)⟩
      | none => exact ⟨h1, h2, h3⟩
  | release => exact ⟨h1, h2, h3⟩
  | keyPlus => refine ⟨?_, ?_, h3⟩ <;> simp [applyEvent]
  | keyMinus => refine ⟨?_, ?_, h3⟩ <;> simp [applyEvent]
  | keyR => exact ⟨h1, h2, by simp [applyEvent]⟩
  | keyF => exact ⟨h1, h2, h3⟩

lemma signInv_applyEvents {s : SState} (hs : SignInv s) (es : List Ev) :
    SignInv (applyEvents s es) := by
  induction es generalizing s with
  | nil => exact hs
  | cons e es ih => exact ih (signInv_applyEvent hs e)

lemma findHitAux_eq_none (mx my : ℚ) :
    ∀ (l : List Charge) (k : Nat),
      findHitAux mx my l k = none ↔ ∀ c ∈ l, 256 ≤ sqDist c mx my := by
  intro l
  induction l with
  | nil => intro k; simp [findHitAux]
  | cons c cs ih =>
      intro k
      rw [findHitAux]
      by_cases hc : sqDist c mx my < 256
      · rw [if_pos hc]
        simp only [List.mem_cons]
        constructor
        · intro h; exact absurd h (by simp)
        · intro h; exact absurd (h c (Or.inl rfl)) (not_le.mpr hc)
      · rw [if_neg hc, ih]
        simp only [List.mem_cons]
        constructor
        · rintro h x (rfl | hx)
          · exact not_lt.mp hc
          · exact h x hx
        · intro h x hx; exact h x (Or.inr hx)

lemma findHitAux_eq_some (mx my : ℚ) :
    ∀ (l : List Charge) (k i : Nat), findHitAux mx my l k = some i →
      ∃ j c, i = k + j ∧ l[j]? = some c ∧ sqDist c mx my < 256 ∧
        ∀ j' c', j' < j → l[j']? = some c' → 256 ≤ sqDist c' mx my := by
  intro l
  induction l with
  | nil => intro k i h; rw [findHitAux] at h; exact absurd h (by simp)
  | cons c cs ih =>
      intro k i h
      rw [findHitAux] at h
      by_cases hc : sqDist c mx my < 256
      · rw [if_pos hc] at h
        have hik : k = i := by injection h
        subst hik
        exact ⟨0, c, by omega, by simp, hc,
          fun j' c' hj' _ => absurd hj' (Nat.not_lt_zero j')⟩
      · rw [if_neg hc] at h
        obtain ⟨j, d, hij, hget, hlt, hfirst⟩ := ih (k + 1) i h
        refine ⟨j + 1, d, by omega, by simpa using hget, hlt, ?_⟩
        intro j' c' hj' hget'
        match j', hget' with
        | 0, hget' =>
            have hcc : c = c' := by simpa using hget'
            subst hcc
            exact not_lt.mp hc
        | j'' + 1, hget' =>
            exact hfirst j'' c' (by omega) (by simpa using hget')

/-- C7: a primary press either hits the first charge within squared distance
256 of the press in iteration order — the drag index becomes that charge's
index and the charge list is unchanged — or, when every charge is at squared
distance at least 256, appends exactly one charge at the press position with
strength equal to the current active sign, leaving the drag state as it was
(None stays None). -/
theorem c7_primary_press_hit_or_create (s : SState) (mx my : ℚ) :
    (∃ i c, s.charges[i]? = some c ∧ sqDist c mx my < 256 ∧
        (∀ j c', j < i → s.charges[j]? = some c' → 256 ≤ sqDist c' mx my) ∧
        applyEvent s (Ev.press1 mx my) = { s with dragging := some i }) ∨
    ((∀ c ∈ s.charges, 256 ≤ sqDist c mx my) ∧
      applyEvent s (Ev.press1 mx my) =
        { s with charges := s.charges ++ [⟨mx, my, (s.activeSign : ℚ)⟩] }) := by
  cases hfind : findHit s.charges mx my with
  | none =>
      refine Or.inr ⟨(findHitAux_eq_none mx my s.charges 0).mp hfind, ?_⟩
      rw [applyEvent, hfind]
  | some i =>
      obtain ⟨j, c, hij, hget, hlt, hfirst⟩ :=
        findHitAux_eq_some mx my s.charges 0 i hfind
      have hj : i = j := by omega
      subst hj
      exact Or.inl ⟨i, c, hget, hlt, hfirst, by rw [applyEvent, hfind]⟩

lemma findNearestAux_no_improvement (mx my : ℚ) :
    ∀ (l : List Charge) (k : Nat) (best : ℚ) (nearest : Option Nat),
      (∀ c ∈ l, best ≤ sqDist c mx my) →
      findNearestAux mx my l k best nearest = nearest := by
  intro l
  induction l with
  | nil => intro k best nearest _; rw [findNearestAux]
  | cons c cs ih =>
      intro k best nearest hall
      rw [findNearestAux,
        if_neg (not_lt.mpr (hall c (List.mem_cons_self c cs)))]
      exact ih (k + 1) best nearest fun x hx => hall x (List.mem_cons_of_mem c hx)

lemma findNearestAux_finds_min (mx my : ℚ) :
    ∀ (l : List Charge) (k : Nat) (best : ℚ) (nearest : Option Nat),
      (∃ c ∈ l, sqDist c mx my < best) →
      ∃ j c, l[j]? = some c ∧ sqDist c mx my < best ∧
        (∀ (j' : Nat) (c' : Charge),
          l[j']? = some c' → sqDist c mx my ≤ sqDist c' mx my) ∧
        (∀ j' c', j' < j → l[j']? = some c' → sqDist c mx my < sqDist c' mx my) ∧
        findNearestAux mx my l k best nearest = some (k + j) := by
  intro l
  induction l with
  | nil => rintro k best nearest ⟨c, hc, -⟩; exact absurd hc (List.not_mem_nil c)
  | cons c cs ih =>
      intro k best nearest hex
      by_cases hc : sqDist c mx my < best
      · rw [findNearestAux, if_pos hc]
        by_cases hcs : ∃ x ∈ cs, sqDist x mx my < sqDist c mx my
        · obtain ⟨j, d, hget, hlt, hmin, hstrict, heq⟩ :=
            ih (k + 1) (sqDist c mx my) (some k) hcs
          refine ⟨j + 1, d, by simpa using hget, lt_trans hlt hc, ?_, ?_, ?_⟩
          · intro j' c' hget'
            match j', hget' with
            | 0, hget' =>
                have hcc : c = c' := by simpa using hget'
                subst hcc
                exact le_of_lt hlt
            | j'' + 1, hget' => exact hmin j'' c' (by simpa using hget')
          · intro j' c' hj' hget'
            match j', hget' with
            | 0, hget' =>
                have hcc : c = c' := by simpa using hget'
                subst hcc
                exact hlt
            | j'' + 1, hget' => exact hstrict j'' c' (by omega) (by simpa using hget')
          · rw [heq]; congr 1; omega
        · push_neg at hcs
          refine ⟨0, c, by simp, hc, ?_, ?_, ?_⟩
          · intro j' c' hget'
            match j', hget' with
            | 0, hget' =>
                have hcc : c = c' := by simpa using hget'
                subst hcc
                exact le_refl _
            | j'' + 1, hget' =>
                have hmem : c' ∈ cs := by
                  have := List.getElem?_eq_some_iff.mp (by simpa using hget')
                  obtain ⟨hlen, hval⟩ := this
                  exact hval ▸ List.getElem_mem hlen
                exact hcs c' hmem
          · intro j' c' hj' _; exact absurd hj' (Nat.not_lt_zero j')
          · rw [findNearestAux_no_improvement mx my cs (k + 1) (sqDist c mx my)
              (some k) hcs]
            congr 1
      · rw [findNearestAux, if_neg hc]
        have hex' : ∃ x ∈ cs, sqDist x mx my < best := by
          obtain ⟨x, hx, hxlt⟩ := hex
          rcases List.mem_cons.mp hx with rfl | hx'
          · exact absurd hxlt hc
          · exact ⟨x, hx', hxlt⟩
        obtain ⟨j, d, hget, hlt, hmin, hstrict, heq⟩ :=
          ih (k + 1) best nearest hex'
        refine ⟨j + 1, d, by simpa using hget, hlt, ?_, ?_, ?_⟩
        · intro j' c' hget'
          match j', hget' with
          | 0, hget' =>
              have hcc : c = c' := by simpa using hget'
              subst hcc
              exact le_of_lt (lt_of_lt_of_le hlt (not_lt.mp hc))
          | j'' + 1, hget' => exact hmin j'' c' (by simpa using hget')
        · intro j' c' hj' hget'
          match j', hget' with
          | 0, hget' =>
              have hcc : c = c' := by simpa using hget'
              subst hcc
              exact lt_of_lt_of_le hlt (not_lt.mp hc)
          | j'' + 1, hget' => exact hstrict j'' c' (by omega) (by simpa using hget')
        · rw [heq]; congr 1; omega

/-- C8: a secondary press with every charge at squared distance at least 400
leaves the charge list unchanged; otherwise exactly the strictly-nearest
charge by squared distance is removed, the first-encountered one winning
exact ties. -/
theorem c8_secondary_press_removes_nearest (s : SState) (mx my : ℚ) :
    ((∀ c ∈ s.charges, 400 ≤ sqDist c mx my) ∧
      applyEvent s (Ev.press3 mx my) = s) ∨
    (∃ i c, s.charges[i]? = some c ∧ sqDist c mx my < 400 ∧
        (∀ (j : Nat) (c' : Charge),
          s.charges[j]? = some c' → sqDist c mx my ≤ sqDist c' mx my) ∧
        (∀ j c', j < i → s.charges[j]? = some c' → sqDist c mx my < sqDist c' mx my) ∧
        applyEvent s (Ev.press3 mx my) =
          { s with charges := s.charges.eraseIdx i }) := by
  by_cases hex : ∃ c ∈ s.charges, sqDist c mx my < 400
  · obtain ⟨j, c, hget, hlt, hmin, hstrict, heq⟩ :=
      findNearestAux_finds_min mx my s.charges 0 400 none hex
    have hfind : findNearest s.charges mx my = some j := by
      rw [findNearest, heq, Nat.zero_add]
    exact Or.inr ⟨j, c, hget, hlt, hmin, hstrict, by rw [applyEvent, hfind]⟩
  · push_neg at hex
    have hall : ∀ c ∈ s.charges, 400 ≤ sqDist c mx my := hex
    have hfind : findNearest s.charges mx my = none :=
      findNearestAux_no_improvement mx my s.charges 0 400 none hall
    exact Or.inl ⟨hall, by rw [applyEvent, hfind]⟩

/-- C1 (exhibits the code bug): from the empty initial session, create two
charges, start dragging the second, then remove the first with a secondary
press; the drag index 1 now points past the end of the one-element charge
list, the source guard on line 201 only rules out the empty list, and the
indexing on line 203 raises IndexError — modelled as none. -/
theorem c1_drag_update_faults_after_removal :
    frameDrag
      (applyEvents initState
        [Ev.press1 0 0, Ev.release, Ev.press1 100 100, Ev.release,
         Ev.press1 100 100, Ev.press3 0 0]) 7 7 = none := by
  norm_num [applyEvents, applyEvent, findHit, findHitAux, findNearest,
    findNearestAux, sqDist, initState, frameDrag, List.foldl]

/-- C2 counterexample: one decrement key moves activeSign from 1 to 0, and
the next primary press on empty space appends a charge of strength exactly
zero, so a reachable ChargeSet holds a zero-magnitude charge. -/
theorem c2_zero_strength_charge_reachable :
    (applyEvents initState [Ev.keyMinus, Ev.press1 50 50]).charges =
      [⟨50, 50, 0⟩] ∧
    ∃ c ∈ (applyEvents initState [Ev.keyMinus, Ev.press1 50 50]).charges,
      c.q = 0 := by
  norm_num [applyEvents, applyEvent, findHit, findHitAux, findNearest,
    findNearestAux, sqDist, initState, List.foldl]

/-- C2 amended: for every event sequence from the initial session state, the
active sign stays in [-10, 10] and every stored charge strength lies in
[-10, 10] (it can be zero); a further primary press either appends exactly
one charge whose strength equals the current active sign, or (on a hit)
leaves the charge list unchanged. -/
theorem c2_charge_strength_bounded (es : List Ev) (mx my : ℚ) :
    (-10 ≤ (applyEvents initState es).activeSign ∧
      (applyEvents initState es).activeSign ≤ 10 ∧
      ∀ c ∈ (applyEvents initState es).charges, (-10 : ℚ) ≤ c.q ∧ c.q ≤ 10) ∧
    ((applyEvents initState (es ++ [Ev.press1 mx my])).charges =
        (applyEvents initState es).charges ++
          [⟨mx, my, ((applyEvents initState es).activeSign : ℚ)⟩] ∨
      (applyEvents initState (es ++ [Ev.press1 mx my])).charges =
        (applyEvents initState es).charges) := by
  have hinv : SignInv (applyEvents initState es) :=
    signInv_applyEvents (by constructor <;> simp [initState]) es
  refine ⟨hinv, ?_⟩
  rw [applyEvents_append_one, applyEvent]
  cases hfind : findHit (applyEvents initState es).charges mx my with
  | some i => exact Or.inr rfl
  | none => exact Or.inl rfl

end ElectricField
